import Mathlib

/-!
Verification of the phone-number forwarding library (`phone_forward.c`).

The development shallowly embeds the C implementation: a phone number is a
`List Char` (absent/NULL numbers are `Option`), the forwarding structure
`PhoneForward` is a 12-ary trie whose node holds an optional forwarding
target and twelve optional children, and a `PhoneNumbers` result is a list
of optional strings (a slot left NULL by the C code is `none`).

Allocation failure of `phfwdNew` is the one fallible effect of the code; it
is modelled by an explicit oracle `alloc : List Bool` consumed one entry per
node creation (an exhausted oracle means success).  `qsort` with the code's
`comparator` is modelled by `List.insertionSort` over the same comparison:
the comparator returns 0 only on equal strings, so every sorted permutation
of the candidate list is the same list (`List.eq_of_perm_of_sorted`) and the
model does not depend on the particular sorting algorithm.
-/

/-- Embeds `isSymbol`: the 12-symbol alphabet is the digits, `*` and `#`. -/
def isSymbol (c : Char) : Bool := c.isDigit || c == '*' || c == '#'

/-- Embeds `charToInt`: digit value, `*` is 10, anything else 11. -/
def charToInt (c : Char) : Nat :=
  if c.isDigit then c.toNat - '0'.toNat
  else if c = '*' then 10 else 11

/-- Embeds `intToChar`: inverse of `charToInt` on codes 0..11. -/
def intToChar (x : Nat) : Char :=
  if x ≤ 9 then Char.ofNat ('0'.toNat + x)
  else if x = 10 then '*' else '#'

/-- Embeds `struct PhoneForward`: one node of the trie, with the optional
forwarding target `forwardNumber` and the twelve child slots. -/
inductive PF where
  | node (forwardNumber : Option (List Char))
      (c0 c1 c2 c3 c4 c5 c6 c7 c8 c9 c10 c11 : Option PF)

/-- The `forwardNumber` field of a node. -/
def PF.fwd : PF → Option (List Char)
  | .node f _ _ _ _ _ _ _ _ _ _ _ _ => f

/-- The `children[i]` slot of a node (`charToInt` only produces 0..11;
indices past 11 read the last slot). -/
def PF.child : PF → Nat → Option PF
  | .node _ c0 c1 c2 c3 c4 c5 c6 c7 c8 c9 c10 c11, i =>
    match i with
    | 0 => c0 | 1 => c1 | 2 => c2 | 3 => c3 | 4 => c4 | 5 => c5
    | 6 => c6 | 7 => c7 | 8 => c8 | 9 => c9 | 10 => c10 | _ => c11

/-- Writing the `children[i]` slot of a node. -/
def PF.setChild : PF → Nat → Option PF → PF
  | .node f c0 c1 c2 c3 c4 c5 c6 c7 c8 c9 c10 c11, i, v =>
    match i with
    | 0 => .node f v c1 c2 c3 c4 c5 c6 c7 c8 c9 c10 c11
    | 1 => .node f c0 v c2 c3 c4 c5 c6 c7 c8 c9 c10 c11
    | 2 => .node f c0 c1 v c3 c4 c5 c6 c7 c8 c9 c10 c11
    | 3 => .node f c0 c1 c2 v c4 c5 c6 c7 c8 c9 c10 c11
    | 4 => .node f c0 c1 c2 c3 v c5 c6 c7 c8 c9 c10 c11
    | 5 => .node f c0 c1 c2 c3 c4 v c6 c7 c8 c9 c10 c11
    | 6 => .node f c0 c1 c2 c3 c4 c5 v c7 c8 c9 c10 c11
    | 7 => .node f c0 c1 c2 c3 c4 c5 c6 v c8 c9 c10 c11
    | 8 => .node f c0 c1 c2 c3 c4 c5 c6 c7 v c9 c10 c11
    | 9 => .node f c0 c1 c2 c3 c4 c5 c6 c7 c8 v c10 c11
    | 10 => .node f c0 c1 c2 c3 c4 c5 c6 c7 c8 c9 v c11
    | _ => .node f c0 c1 c2 c3 c4 c5 c6 c7 c8 c9 c10 v

/-- Overwriting the `forwardNumber` field of a node. -/
def PF.setFwd : PF → Option (List Char) → PF
  | .node _ c0 c1 c2 c3 c4 c5 c6 c7 c8 c9 c10 c11, v =>
    .node v c0 c1 c2 c3 c4 c5 c6 c7 c8 c9 c10 c11

/-- Embeds a successful `phfwdNew`: no rule, no children. -/
def PF.empty : PF :=
  .node none none none none none none none none none none none none none

/-- Embeds `isNumberOk`: the number is not NULL, not empty, and made of
alphabet symbols only. -/
def isNumberOk : Option (List Char) → Bool
  | none => false
  | some s => !s.isEmpty && s.all isSymbol

/-- One `phfwdNew` call under the allocation oracle: the next oracle entry
decides success (an exhausted oracle always succeeds). -/
def allocNew : List Bool → Option PF × List Bool
  | [] => (some PF.empty, [])
  | b :: r => (if b then some PF.empty else none, r)

/-- Embeds `addPhoneForward`: walk down `num1` creating missing nodes, then
overwrite the target at the final node with `num2`.  Returns the success
flag, the updated subtree and the remaining oracle; on a failed node
creation the child slot stays empty and `false` is returned, with every
node created so far still attached (exactly as in the C code). -/
def addPhoneForward (alloc : List Bool) (pf : PF) (num1 num2 : List Char) :
    Bool × PF × List Bool :=
  match num1 with
  | [] => (true, pf.setFwd (some num2), alloc)
  | c :: rest =>
    match pf.child (charToInt c) with
    | some ch =>
      let r := addPhoneForward alloc ch rest num2
      (r.1, pf.setChild (charToInt c) (some r.2.1), r.2.2)
    | none =>
      match allocNew alloc with
      | (none, alloc') => (false, pf, alloc')
      | (some fresh, alloc') =>
        let r := addPhoneForward alloc' fresh rest num2
        (r.1, pf.setChild (charToInt c) (some r.2.1), r.2.2)

/-- Embeds `phoneForwardRemove`: walk to the parent of `num`'s node and
sever (delete) the subtree hanging at `num`'s last symbol. -/
def phoneForwardRemove (pf : PF) (num : List Char) : PF :=
  match num with
  | [] => pf
  | [c] => pf.setChild (charToInt c) none
  | c :: d :: rest =>
    match pf.child (charToInt c) with
    | none => pf
    | some ch => pf.setChild (charToInt c) (some (phoneForwardRemove ch (d :: rest)))

/-- Embeds `phfwdRemove`: no-op on a NULL trie or an invalid number. -/
def phfwdRemove (pf : Option PF) (num : Option (List Char)) : Option PF :=
  match pf with
  | none => none
  | some t => if isNumberOk num then some (phoneForwardRemove t (num.getD [])) else some t

/-- Embeds `phfwdAdd`: reject a NULL trie, invalid numbers and a
self-mapping; otherwise run `addPhoneForward`, and on failure roll back
with `phfwdRemove` on the prefix. -/
def phfwdAdd (alloc : List Bool) (pf : Option PF) (num1 num2 : Option (List Char)) :
    Bool × Option PF :=
  match pf with
  | none => (false, none)
  | some t =>
    if !isNumberOk num1 || !isNumberOk num2 || num1 == num2 then (false, some t)
    else
      let r := addPhoneForward alloc t (num1.getD []) (num2.getD [])
      if r.1 then (true, some r.2.1)
      else (false, phfwdRemove (some r.2.1) num1)

/-- Embeds `struct PhoneNumbers`: the slots of the result array, a NULL
slot being `none` (the reported `size` is the length of the list). -/
abbrev PhoneNumbers := List (Option (List Char))

/-- Embeds `phnumGet`: NULL on a NULL list or an index past `size`,
otherwise the slot's content (itself possibly NULL). -/
def phnumGet (pnum : Option PhoneNumbers) (idx : Nat) : Option (List Char) :=
  match pnum with
  | none => none
  | some l => l.getD idx none

/-- Embeds `phoneForwardGet`: walk the trie along `num`, remembering the
last non-NULL target `pn` seen and the depth `j` where it was seen; `i` is
the current depth. -/
def phoneForwardGet (pf : PF) (num : List Char) (pn : Option (List Char)) (j i : Nat) :
    Option (List Char) × Nat :=
  let pn' := if pf.fwd.isSome then pf.fwd else pn
  let j' := if pf.fwd.isSome then i else j
  match num with
  | [] => (pn', j')
  | c :: rest =>
    match pf.child (charToInt c) with
    | none => (pn', j')
    | some ch => phoneForwardGet ch rest pn' j' (i + 1)

/-- Embeds `phfwdGet`: NULL on a NULL trie; a one-slot list whose slot is
NULL on an invalid number; otherwise the deepest matched target (or the
empty string when none matched, with `j = 0`) concatenated with the
unconsumed suffix `num[j:]`. -/
def phfwdGet (pf : Option PF) (num : Option (List Char)) : Option PhoneNumbers :=
  match pf with
  | none => none
  | some t =>
    if !isNumberOk num then some [none]
    else
      let n := num.getD []
      let r := phoneForwardGet t n none 0 0
      some [some (r.1.getD [] ++ n.drop r.2)]

/-- Embeds `isPrefixOf` from the source: textual prefix test. -/
def isPrefixOf : List Char → List Char → Bool
  | [], _ => true
  | _ :: _, [] => false
  | a :: as, b :: bs => a == b && isPrefixOf as bs

/-- Embeds `comparator`: position-by-position comparison of the symbol
codes, the shorter string first on a tie. -/
def comparator : List Char → List Char → Int
  | [], [] => 0
  | [], _ :: _ => -1
  | _ :: _, [] => 1
  | a :: as, b :: bs =>
    if charToInt a > charToInt b then 1
    else if charToInt a < charToInt b then -1
    else comparator as bs

/-- The (non-strict) order the code's `comparator` induces. -/
def NumLe (a b : List Char) : Prop := comparator a b ≤ 0

instance : DecidableRel NumLe :=
  fun a b => inferInstanceAs (Decidable (comparator a b ≤ 0))

/-- The strict order the code's `comparator` induces. -/
def NumLt (a b : List Char) : Prop := comparator a b < 0

mutual

/-- Embeds `reverse`: depth-first traversal of the trie, `currentNum` being
the string of symbols on the path from the root.  At a node whose target is
a textual prefix of `reverseNum`, emit the path followed by the part of
`reverseNum` past the target. -/
def reverseWalk (pf : PF) (reverseNum currentNum : List Char) : List (List Char) :=
  match pf with
  | .node fwd c0 c1 c2 c3 c4 c5 c6 c7 c8 c9 c10 c11 =>
    (match fwd with
     | some f =>
       if isPrefixOf f reverseNum then [currentNum ++ reverseNum.drop f.length] else []
     | none => []) ++
    reverseChild c0 reverseNum currentNum 0 ++
    reverseChild c1 reverseNum currentNum 1 ++
    reverseChild c2 reverseNum currentNum 2 ++
    reverseChild c3 reverseNum currentNum 3 ++
    reverseChild c4 reverseNum currentNum 4 ++
    reverseChild c5 reverseNum currentNum 5 ++
    reverseChild c6 reverseNum currentNum 6 ++
    reverseChild c7 reverseNum currentNum 7 ++
    reverseChild c8 reverseNum currentNum 8 ++
    reverseChild c9 reverseNum currentNum 9 ++
    reverseChild c10 reverseNum currentNum 10 ++
    reverseChild c11 reverseNum currentNum 11

/-- The traversal step of `reverse` into the child at branch index `i` (a
NULL child contributes nothing). -/
def reverseChild (o : Option PF) (reverseNum currentNum : List Char) (i : Nat) :
    List (List Char) :=
  match o with
  | none => []
  | some t => reverseWalk t reverseNum (currentNum ++ [intToChar i])

end

/-- Embeds the deduplication loop of `phfwdReverse`: keep each element that
differs from its successor, and always keep the last element. -/
def dedupAdj : List (List Char) → List (List Char)
  | [] => []
  | [a] => [a]
  | a :: b :: rest => if a = b then dedupAdj (b :: rest) else a :: dedupAdj (b :: rest)

/-- Embeds `phfwdReverse`: collect the traversal's candidates, append `num`
itself, sort with `comparator` (see the header comment on `qsort`), and
remove adjacent duplicates. -/
def phfwdReverse (pf : Option PF) (num : Option (List Char)) : Option PhoneNumbers :=
  match pf with
  | none => none
  | some t =>
    if !isNumberOk num then some [none]
    else
      let n := num.getD []
      some ((dedupAdj (List.insertionSort NumLe (reverseWalk t n [] ++ [n]))).map some)

/-- Embeds `phfwdGetReverse`: filter the `phfwdReverse` candidates, keeping
those whose forward resolution is exactly `num`.  The C condition is
`testPn != NULL && testPn->size != 0 && !strcmp(testPn->numbers[0], num)`;
`strcmp` against a NULL slot (which the C code would never reach on a
well-formed trie) is modelled as a failed comparison. -/
def phfwdGetReverse (pf : Option PF) (num : Option (List Char)) : Option PhoneNumbers :=
  match pf with
  | none => none
  | some t =>
    if !isNumberOk num then some [none]
    else
      let pn := (phfwdReverse (some t) num).getD []
      some (pn.filter fun y =>
        match phfwdGet (some t) y with
        | none => false
        | some testPn => !testPn.isEmpty && decide (testPn.getD 0 none = num))

/-- The node reached from `t` by consuming the symbols of `p` (the node "on
the root path" at depth `p.length`). -/
def nodeAt (t : PF) : List Char → Option PF
  | [] => some t
  | c :: rest =>
    match t.child (charToInt c) with
    | none => none
    | some ch => nodeAt ch rest

/-- The forwarding rule registered at the exact path `p`, if any. -/
def ruleAt (t : PF) (p : List Char) : Option (List Char) :=
  match nodeAt t p with
  | none => none
  | some nd => nd.fwd

/-- The node at depth `j` on `n`'s root path exists and holds target `f`. -/
def Found (t : PF) (n : List Char) (j : Nat) (f : List Char) : Prop :=
  j ≤ n.length ∧ ruleAt t (n.take j) = some f

/-- The deepest target on `n`'s root path together with its depth: the
abstract value `phoneForwardGet` computes. -/
def maxFound (t : PF) : List Char → Option (Nat × List Char)
  | [] => t.fwd.map fun f => (0, f)
  | c :: rest =>
    match t.child (charToInt c) with
    | none => t.fwd.map fun f => (0, f)
    | some ch =>
      match maxFound ch rest with
      | some (j, f) => some (j + 1, f)
      | none => t.fwd.map fun f => (0, f)

mutual

/-- Size of a trie (number of nodes), used for strong induction. -/
def PF.size : PF → Nat
  | .node _ c0 c1 c2 c3 c4 c5 c6 c7 c8 c9 c10 c11 =>
    1 + sizeO c0 + sizeO c1 + sizeO c2 + sizeO c3 + sizeO c4 + sizeO c5 +
      sizeO c6 + sizeO c7 + sizeO c8 + sizeO c9 + sizeO c10 + sizeO c11

/-- Size of an optional child. -/
def sizeO : Option PF → Nat
  | none => 0
  | some t => t.size

end

mutual

/-- Every target stored anywhere in the trie is a valid number.  This holds
of every trie the API can build, since `phfwdAdd` validates its target. -/
def targetsOk : PF → Bool
  | .node fwd c0 c1 c2 c3 c4 c5 c6 c7 c8 c9 c10 c11 =>
    (match fwd with | none => true | some f => isNumberOk (some f)) &&
    targetsOkO c0 && targetsOkO c1 && targetsOkO c2 && targetsOkO c3 &&
    targetsOkO c4 && targetsOkO c5 && targetsOkO c6 && targetsOkO c7 &&
    targetsOkO c8 && targetsOkO c9 && targetsOkO c10 && targetsOkO c11

/-- `targetsOk` for an optional child. -/
def targetsOkO : Option PF → Bool
  | none => true
  | some t => targetsOk t

end

/-! ### Basic facts about the alphabet -/

theorem char_zero_toNat : ('0').toNat = 48 := rfl

theorem digit_toNat_bounds {c : Char} (h : c.isDigit = true) :
    48 ≤ c.toNat ∧ c.toNat ≤ 57 := by
  simp [Char.isDigit, Char.le_def] at h
  exact ⟨h.1, h.2⟩

theorem charToInt_lt_12 (c : Char) : charToInt c < 12 := by
  unfold charToInt
  split
  · rename_i h
    have hb := digit_toNat_bounds h
    have h0 : ('0').toNat = 48 := rfl
    omega
  · split <;> omega

theorem charToInt_intToChar {i : Nat} (h : i < 12) : charToInt (intToChar i) = i := by
  interval_cases i <;> decide

theorem isSymbol_intToChar {i : Nat} (h : i < 12) : isSymbol (intToChar i) = true := by
  interval_cases i <;> decide

theorem intToChar_charToInt {c : Char} (h : isSymbol c = true) :
    intToChar (charToInt c) = c := by
  by_cases hd : c.isDigit = true
  · have hb := digit_toNat_bounds hd
    have h1 : charToInt c = c.toNat - 48 := by
      unfold charToInt
      rw [if_pos hd, show ('0').toNat = 48 from rfl]
    rw [h1]
    unfold intToChar
    rw [if_pos (by omega : c.toNat - 48 ≤ 9)]
    rw [show ('0').toNat = 48 from rfl]
    rw [show 48 + (c.toNat - 48) = c.toNat by omega]
    exact Char.ofNat_toNat c
  · have hsh : c = '*' ∨ c = '#' := by
      simp [isSymbol, hd] at h
      tauto
    rcases hsh with h | h <;> subst h <;> decide

theorem charToInt_inj {c d : Char} (hc : isSymbol c = true) (hd : isSymbol d = true)
    (h : charToInt c = charToInt d) : c = d := by
  have := intToChar_charToInt hc
  rw [h, intToChar_charToInt hd] at this
  exact this.symm

/-! ### Basic facts about nodes -/

theorem setChild_fwd (t : PF) (i : Nat) (v : Option PF) : (t.setChild i v).fwd = t.fwd := by
  cases t
  rcases i with _ | _ | _ | _ | _ | _ | _ | _ | _ | _ | _ | _ | i <;> rfl

theorem setChild_self (t : PF) (i : Nat) : t.setChild i (t.child i) = t := by
  cases t
  rcases i with _ | _ | _ | _ | _ | _ | _ | _ | _ | _ | _ | _ | i <;> rfl

theorem child_setChild (t : PF) (v : Option PF) {i j : Nat} (hi : i < 12) (hj : j < 12) :
    (t.setChild i v).child j = if i = j then v else t.child j := by
  cases t
  interval_cases i <;> interval_cases j <;> simp [PF.child, PF.setChild]

theorem size_child {t : PF} {i : Nat} {ch : PF} (h : t.child i = some ch) :
    ch.size < t.size := by
  cases t with
  | node f c0 c1 c2 c3 c4 c5 c6 c7 c8 c9 c10 c11 =>
    rcases i with _ | _ | _ | _ | _ | _ | _ | _ | _ | _ | _ | _ | i <;>
      (simp only [PF.child] at h; subst h; simp only [PF.size, sizeO]; omega)

theorem targetsOk_fwd {t : PF} {f : List Char} (hok : targetsOk t = true)
    (h : t.fwd = some f) : isNumberOk (some f) = true := by
  cases t
  simp only [PF.fwd] at h
  subst h
  simp [targetsOk, Bool.and_eq_true] at hok
  tauto

theorem targetsOk_child {t : PF} {i : Nat} {ch : PF} (hok : targetsOk t = true)
    (h : t.child i = some ch) : targetsOk ch = true := by
  cases t with
  | node f c0 c1 c2 c3 c4 c5 c6 c7 c8 c9 c10 c11 =>
    rcases i with _ | _ | _ | _ | _ | _ | _ | _ | _ | _ | _ | _ | i <;>
      (simp only [PF.child] at h; subst h;
       simp [targetsOk, targetsOkO, Bool.and_eq_true] at hok; tauto)

theorem targetsOk_nodeAt {t : PF} {p : List Char} {nd : PF} (hok : targetsOk t = true)
    (h : nodeAt t p = some nd) : targetsOk nd = true := by
  induction p generalizing t with
  | nil => simp [nodeAt] at h; subst h; exact hok
  | cons c rest ih =>
    simp only [nodeAt] at h
    cases hc : t.child (charToInt c) with
    | none =>
      rw [hc] at h
      exact Option.noConfusion h
    | some ch =>
      rw [hc] at h
      exact ih (targetsOk_child hok hc) h

/-! ### The longest-match abstraction of `phoneForwardGet` -/

theorem nodeAt_nil (t : PF) : nodeAt t [] = some t := rfl

theorem found_zero {t : PF} {n : List Char} {f : List Char} :
    Found t n 0 f ↔ t.fwd = some f := by
  simp [Found, ruleAt, nodeAt]

theorem found_cons {t : PF} {c : Char} {rest : List Char} {j : Nat} {f : List Char} :
    Found t (c :: rest) (j + 1) f ↔
      ∃ ch, t.child (charToInt c) = some ch ∧ Found ch rest j f := by
  constructor
  · rintro ⟨hj, hr⟩
    simp only [List.take_succ_cons] at hr
    cases hc : t.child (charToInt c) with
    | none =>
      exfalso
      simp only [ruleAt, nodeAt, hc] at hr
      exact Option.noConfusion hr
    | some ch =>
      refine ⟨ch, rfl, ?_, ?_⟩
      · simpa using hj
      · simpa only [ruleAt, nodeAt, hc] using hr
  · rintro ⟨ch, hc, hj, hr⟩
    refine ⟨by simpa using hj, ?_⟩
    simpa only [List.take_succ_cons, ruleAt, nodeAt, hc] using hr

theorem found_unique {t : PF} {n : List Char} {j : Nat} {f f' : List Char}
    (h : Found t n j f) (h' : Found t n j f') : f = f' := by
  have := h.2.symm.trans h'.2
  exact Option.some.inj this

theorem maxFound_found {t : PF} {n : List Char} {j : Nat} {f : List Char}
    (h : maxFound t n = some (j, f)) : Found t n j f := by
  induction n generalizing t j with
  | nil =>
    simp only [maxFound, Option.map_eq_some'] at h
    obtain ⟨g, hg, he⟩ := h
    simp only [Prod.mk.injEq] at he
    obtain ⟨rfl, rfl⟩ := he
    exact found_zero.mpr hg
  | cons c rest ih =>
    cases hc : t.child (charToInt c) with
    | none =>
      simp only [maxFound, hc, Option.map_eq_some'] at h
      obtain ⟨g, hg, he⟩ := h
      simp only [Prod.mk.injEq] at he
      obtain ⟨rfl, rfl⟩ := he
      exact found_zero.mpr hg
    | some ch =>
      cases hm : maxFound ch rest with
      | some df =>
        obtain ⟨d, g⟩ := df
        simp only [maxFound, hc, hm, Option.some.injEq, Prod.mk.injEq] at h
        obtain ⟨rfl, rfl⟩ := h
        exact found_cons.mpr ⟨ch, hc, ih hm⟩
      | none =>
        simp only [maxFound, hc, hm, Option.map_eq_some'] at h
        obtain ⟨g, hg, he⟩ := h
        simp only [Prod.mk.injEq] at he
        obtain ⟨rfl, rfl⟩ := he
        exact found_zero.mpr hg

theorem maxFound_none {t : PF} {n : List Char} (h : maxFound t n = none)
    {j : Nat} {f : List Char} : ¬ Found t n j f := by
  induction n generalizing t j with
  | nil =>
    intro hf
    have hj : j = 0 := Nat.le_zero.mp hf.1
    subst hj
    have := found_zero.mp hf
    simp [maxFound, this] at h
  | cons c rest ih =>
    intro hf
    cases hc : t.child (charToInt c) with
    | none =>
      cases j with
      | zero =>
        have := found_zero.mp hf
        simp [maxFound, hc, this] at h
      | succ j =>
        obtain ⟨ch, hch, _⟩ := found_cons.mp hf
        rw [hc] at hch
        exact Option.noConfusion hch
    | some ch =>
      cases hm : maxFound ch rest with
      | some df =>
        obtain ⟨d, g⟩ := df
        simp only [maxFound, hc, hm] at h
        exact Option.noConfusion h
      | none =>
        cases j with
        | zero =>
          have := found_zero.mp hf
          simp [maxFound, hc, hm, this] at h
        | succ j =>
          obtain ⟨ch', hch, hf'⟩ := found_cons.mp hf
          rw [hc] at hch
          cases Option.some.inj hch
          exact ih hm hf'

theorem maxFound_ge {t : PF} {n : List Char} {j : Nat} {f : List Char}
    (h : maxFound t n = some (j, f)) {j' : Nat} {f' : List Char}
    (h' : Found t n j' f') : j' ≤ j := by
  induction n generalizing t j j' with
  | nil => exact Nat.le_zero.mp h'.1 ▸ Nat.zero_le j
  | cons c rest ih =>
    cases j' with
    | zero => exact Nat.zero_le j
    | succ j' =>
      obtain ⟨ch, hch, hf'⟩ := found_cons.mp h'
      cases hm : maxFound ch rest with
      | some df =>
        obtain ⟨d, g⟩ := df
        simp only [maxFound, hch, hm, Option.some.injEq, Prod.mk.injEq] at h
        obtain ⟨rfl, rfl⟩ := h
        exact Nat.succ_le_succ (ih hm hf')
      | none => exact absurd hf' (maxFound_none hm)

theorem phoneForwardGet_maxFound (n : List Char) :
    ∀ (t : PF) (pn : Option (List Char)) (j i : Nat),
    phoneForwardGet t n pn j i =
      match maxFound t n with
      | some (d, f) => (some f, i + d)
      | none => (pn, j) := by
  induction n with
  | nil =>
    intro t pn j i
    cases hf : t.fwd <;> simp [phoneForwardGet, maxFound, hf]
  | cons c rest ih =>
    intro t pn j i
    cases hc : t.child (charToInt c) with
    | none =>
      cases hf : t.fwd <;> simp [phoneForwardGet, maxFound, hc, hf]
    | some ch =>
      have hstep : phoneForwardGet t (c :: rest) pn j i =
          phoneForwardGet ch rest (if t.fwd.isSome then t.fwd else pn)
            (if t.fwd.isSome then i else j) (i + 1) := by
        simp only [phoneForwardGet, hc]
      rw [hstep, ih]
      cases hm : maxFound ch rest with
      | some df =>
        obtain ⟨d, f⟩ := df
        simp only [maxFound, hc, hm]
        have : i + 1 + d = i + (d + 1) := by omega
        rw [this]
      | none =>
        cases hf : t.fwd <;> simp [maxFound, hc, hm, hf]

theorem phfwdGet_eq (t : PF) {n : List Char} (hok : isNumberOk (some n) = true) :
    phfwdGet (some t) (some n) =
      some [some (match maxFound t n with
        | some (j, f) => f ++ n.drop j
        | none => n)] := by
  simp only [phfwdGet, hok, Bool.not_true, Bool.false_eq_true, if_false]
  rw [phoneForwardGet_maxFound]
  cases hm : maxFound t n with
  | some df =>
    obtain ⟨d, f⟩ := df
    simp [hm]
  | none => simp [hm]

/-- A sample trie holding the rules 12 -> 1 and 123 -> 2 (built through the
API, for witnesses). -/
def sampleTrie : PF :=
  ((phfwdAdd [] (phfwdAdd [] (some PF.empty) (some ['1', '2']) (some ['1'])).2
      (some ['1', '2', '3']) (some ['2'])).2).getD PF.empty

/-- C1: on a non-NULL trie and a valid number `n`, `phfwdGet` returns a
one-element list whose element is the target of the deepest node on `n`'s
root path holding a target, concatenated with the suffix of `n` after the
`j` symbols consumed to reach that node; and `n` itself, unchanged, when no
node on the path holds a target. -/
theorem get_longest_match (t : PF) (n : List Char) (h : isNumberOk (some n) = true) :
    ∃ r : List Char, phfwdGet (some t) (some n) = some [some r] ∧
      ((∃ j f, Found t n j f ∧ (∀ j' f', Found t n j' f' → j' ≤ j) ∧ r = f ++ n.drop j) ∨
       ((∀ j f, ¬ Found t n j f) ∧ r = n)) := by
  rw [phfwdGet_eq t h]
  cases hm : maxFound t n with
  | some df =>
    obtain ⟨j, f⟩ := df
    refine ⟨f ++ n.drop j, rfl, Or.inl ⟨j, f, maxFound_found hm, ?_, rfl⟩⟩
    intro j' f' hf'
    exact maxFound_ge hm hf'
  | none =>
    exact ⟨n, rfl, Or.inr ⟨fun j f => maxFound_none hm, rfl⟩⟩

/-- Witness for `get_longest_match`: the concrete trie with rules 12 -> 1
and 123 -> 2 and the query 1234. -/
theorem get_longest_match_witness :
    isNumberOk (some ['1', '2', '3', '4']) = true ∧
    (∃ r : List Char,
      phfwdGet (some sampleTrie) (some ['1', '2', '3', '4']) = some [some r] ∧
      ((∃ j f, Found sampleTrie ['1', '2', '3', '4'] j f ∧
          (∀ j' f', Found sampleTrie ['1', '2', '3', '4'] j' f' → j' ≤ j) ∧
          r = f ++ (['1', '2', '3', '4'].drop j)) ∨
       ((∀ j f, ¬ Found sampleTrie ['1', '2', '3', '4'] j f) ∧
          r = ['1', '2', '3', '4']))) :=
  ⟨by decide, get_longest_match sampleTrie ['1', '2', '3', '4'] (by decide)⟩

/-- C9: on a non-NULL trie and an invalid number, `phfwdGet`,
`phfwdReverse` and `phfwdGetReverse` each return a result list of size
exactly one whose single slot is the absent marker, and indexed access at
position 0 yields the absent marker rather than a real string. -/
theorem invalid_input_degenerate (t : PF) (num : Option (List Char))
    (h : isNumberOk num = false) :
    phfwdGet (some t) num = some [none] ∧
    phfwdReverse (some t) num = some [none] ∧
    phfwdGetReverse (some t) num = some [none] ∧
    phnumGet (phfwdGet (some t) num) 0 = none ∧
    phnumGet (phfwdReverse (some t) num) 0 = none ∧
    phnumGet (phfwdGetReverse (some t) num) 0 = none := by
  refine ⟨?_, ?_, ?_, ?_, ?_, ?_⟩ <;>
    simp [phfwdGet, phfwdReverse, phfwdGetReverse, phnumGet, h]

/-- Witness for `invalid_input_degenerate`: the empty (invalid) number on
an empty trie. -/
theorem invalid_input_degenerate_witness :
    isNumberOk (some []) = false ∧
    (phfwdGet (some PF.empty) (some []) = some [none] ∧
     phfwdReverse (some PF.empty) (some []) = some [none] ∧
     phfwdGetReverse (some PF.empty) (some []) = some [none] ∧
     phnumGet (phfwdGet (some PF.empty) (some [])) 0 = none ∧
     phnumGet (phfwdReverse (some PF.empty) (some [])) 0 = none ∧
     phnumGet (phfwdGetReverse (some PF.empty) (some [])) 0 = none) :=
  ⟨by decide, invalid_input_degenerate PF.empty (some []) (by decide)⟩

/-- C7: `phfwdAdd` returns false and performs no mutation whenever either
number is invalid (NULL, empty, or containing a character outside the
alphabet) or the two numbers are equal. -/
theorem add_rejects (alloc : List Bool) (t : PF) (num1 num2 : Option (List Char))
    (h : isNumberOk num1 = false ∨ isNumberOk num2 = false ∨ num1 = num2) :
    phfwdAdd alloc (some t) num1 num2 = (false, some t) := by
  simp only [phfwdAdd]
  rcases h with h | h | h
  · simp [h]
  · simp [h]
  · subst h
    simp

/-- Witness for `add_rejects`: the self-mapping 600 -> 600 is rejected on
the empty trie, and 600 still resolves to itself afterwards. -/
theorem add_rejects_witness :
    (isNumberOk (some ['6', '0', '0']) = false ∨
     isNumberOk (some ['6', '0', '0']) = false ∨
     (some ['6', '0', '0'] : Option (List Char)) = some ['6', '0', '0']) ∧
    phfwdAdd [] (some PF.empty) (some ['6', '0', '0']) (some ['6', '0', '0']) =
      (false, some PF.empty) ∧
    phnumGet (phfwdGet (some PF.empty) (some ['6', '0', '0'])) 0 = some ['6', '0', '0'] :=
  ⟨Or.inr (Or.inr rfl),
   add_rejects [] PF.empty (some ['6', '0', '0']) (some ['6', '0', '0'])
     (Or.inr (Or.inr rfl)),
   by decide⟩

/-! ### Facts about `phoneForwardRemove` -/

theorem ruleAt_nil (t : PF) : ruleAt t [] = t.fwd := rfl

theorem ruleAt_cons_none {t : PF} {c : Char} {q : List Char}
    (hc : t.child (charToInt c) = none) : ruleAt t (c :: q) = none := by
  simp [ruleAt, nodeAt, hc]

theorem ruleAt_cons_some {t : PF} {c : Char} {q : List Char} {ch : PF}
    (hc : t.child (charToInt c) = some ch) : ruleAt t (c :: q) = ruleAt ch q := by
  simp [ruleAt, nodeAt, hc]

theorem remove_fwd (t : PF) (n : List Char) : (phoneForwardRemove t n).fwd = t.fwd := by
  match n with
  | [] => rfl
  | [c] => exact setChild_fwd t _ none
  | c :: d :: m =>
    simp only [phoneForwardRemove]
    cases t.child (charToInt c) with
    | none => rfl
    | some ch => exact setChild_fwd t _ _

theorem remove_absent : ∀ (n : List Char) (t : PF), nodeAt t n = none →
    phoneForwardRemove t n = t := by
  intro n
  match n with
  | [] => intro t h; exact absurd h (by simp [nodeAt])
  | [c] =>
    intro t h
    simp only [nodeAt] at h
    cases hc : t.child (charToInt c) with
    | none =>
      simp only [phoneForwardRemove]
      rw [← hc]
      exact setChild_self t _
    | some ch =>
      rw [hc] at h
      exact absurd h (by simp [nodeAt])
  | c :: d :: m =>
    intro t h
    simp only [nodeAt] at h
    cases hc : t.child (charToInt c) with
    | none => simp only [phoneForwardRemove, hc]
    | some ch =>
      rw [hc] at h
      have ih := remove_absent (d :: m) ch h
      simp only [phoneForwardRemove, hc, ih]
      rw [← hc]
      exact setChild_self t _

theorem remove_ruleAt : ∀ (n : List Char), n ≠ [] → n.all isSymbol = true →
    ∀ (t : PF) (p : List Char), p.all isSymbol = true →
      ((∃ rest, p = n ++ rest) → ruleAt (phoneForwardRemove t n) p = none) ∧
      ((¬ ∃ rest, p = n ++ rest) → ruleAt (phoneForwardRemove t n) p = ruleAt t p) := by
  intro n
  match n with
  | [] => intro h; exact absurd rfl h
  | [c] =>
    intro _ hsym t p hp
    have hcsym : isSymbol c = true := by simpa using hsym
    have hlt := charToInt_lt_12 c
    constructor
    · rintro ⟨rest, rfl⟩
      have hnone : (phoneForwardRemove t [c]).child (charToInt c) = none := by
        simp only [phoneForwardRemove]
        rw [child_setChild t none hlt hlt]
        simp
      exact ruleAt_cons_none hnone
    · intro hnotext
      cases p with
      | nil => rw [ruleAt_nil, ruleAt_nil, remove_fwd]
      | cons e q =>
        have he : isSymbol e = true := by
          simp only [List.all_cons, Bool.and_eq_true] at hp
          exact hp.1
        have hne : e ≠ c := fun heq => hnotext ⟨q, by rw [heq]; rfl⟩
        have hne' : charToInt c ≠ charToInt e :=
          fun hh => hne (charToInt_inj he hcsym hh.symm)
        have hch : (phoneForwardRemove t [c]).child (charToInt e) =
            t.child (charToInt e) := by
          simp only [phoneForwardRemove]
          rw [child_setChild t none hlt (charToInt_lt_12 e)]
          simp [hne']
        cases hcc : t.child (charToInt e) with
        | none => rw [ruleAt_cons_none (hch.trans hcc), ruleAt_cons_none hcc]
        | some ch => rw [ruleAt_cons_some (hch.trans hcc), ruleAt_cons_some hcc]
  | c :: d :: m =>
    intro _ hsym t p hp
    have hcsym : isSymbol c = true := by
      simp only [List.all_cons, Bool.and_eq_true] at hsym
      exact hsym.1
    have hdm : (d :: m).all isSymbol = true := by
      simp only [List.all_cons, Bool.and_eq_true] at hsym ⊢
      exact ⟨hsym.2.1, hsym.2.2⟩
    have hlt := charToInt_lt_12 c
    cases hc : t.child (charToInt c) with
    | none =>
      simp only [phoneForwardRemove, hc]
      constructor
      · rintro ⟨rest, rfl⟩
        exact ruleAt_cons_none hc
      · intro _
        trivial
    | some ch =>
      have ih := remove_ruleAt (d :: m) (by simp) hdm ch
      simp only [phoneForwardRemove, hc]
      constructor
      · rintro ⟨rest, rfl⟩
        have hq : ((d :: m) ++ rest).all isSymbol = true := by
          simp only [List.cons_append, List.all_cons, List.all_append,
            Bool.and_eq_true] at hp ⊢
          tauto
        have hch : (t.setChild (charToInt c)
              (some (phoneForwardRemove ch (d :: m)))).child (charToInt c) =
            some (phoneForwardRemove ch (d :: m)) := by
          rw [child_setChild t _ hlt hlt]
          simp
        simp only [List.cons_append]
        rw [ruleAt_cons_some hch]
        exact (ih _ hq).1 ⟨rest, by simp⟩
      · intro hnotext
        cases p with
        | nil => rw [ruleAt_nil, ruleAt_nil, setChild_fwd]
        | cons e q =>
          have he : isSymbol e = true := by
            simp only [List.all_cons, Bool.and_eq_true] at hp
            exact hp.1
          by_cases heq : e = c
          · subst heq
            have hch : (t.setChild (charToInt e)
                  (some (phoneForwardRemove ch (d :: m)))).child (charToInt e) =
                some (phoneForwardRemove ch (d :: m)) := by
              rw [child_setChild t _ (charToInt_lt_12 e) (charToInt_lt_12 e)]
              simp
            rw [ruleAt_cons_some hch, ruleAt_cons_some hc]
            have hq : q.all isSymbol = true := by
              simp only [List.all_cons, Bool.and_eq_true] at hp
              exact hp.2
            refine (ih q hq).2 ?_
            rintro ⟨rest, rfl⟩
            exact hnotext ⟨rest, rfl⟩
          · have hne' : charToInt c ≠ charToInt e :=
              fun hh => heq (charToInt_inj he hcsym hh.symm)
            have hch : (t.setChild (charToInt c)
                  (some (phoneForwardRemove ch (d :: m)))).child (charToInt e) =
                t.child (charToInt e) := by
              rw [child_setChild t _ hlt (charToInt_lt_12 e)]
              simp [hne']
            cases hcc : t.child (charToInt e) with
            | none => rw [ruleAt_cons_none (hch.trans hcc), ruleAt_cons_none hcc]
            | some ch2 => rw [ruleAt_cons_some (hch.trans hcc), ruleAt_cons_some hcc]

/-- C5: `phfwdRemove` on a valid number deletes the rule stored at the
exact node for the number and every rule stored at any longer path
extending it (the whole subtree), leaves every rule at a path not
extending the number intact, is the structural identity when no node
exists at the number's path, and is a silent no-op on an invalid number. -/
theorem remove_subtree (t : PF) (n : List Char) (h : isNumberOk (some n) = true) :
    (∃ t', phfwdRemove (some t) (some n) = some t' ∧
      (∀ p, p.all isSymbol = true → (∃ rest, p = n ++ rest) → ruleAt t' p = none) ∧
      (∀ p, p.all isSymbol = true → (¬ ∃ rest, p = n ++ rest) →
        ruleAt t' p = ruleAt t p) ∧
      (nodeAt t n = none → t' = t)) ∧
    (∀ m : Option (List Char), isNumberOk m = false →
      phfwdRemove (some t) m = some t) := by
  have hne : n ≠ [] := by
    intro he
    subst he
    simp [isNumberOk] at h
  have hsym : n.all isSymbol = true := by
    simp only [isNumberOk, Bool.and_eq_true] at h
    exact h.2
  constructor
  · refine ⟨phoneForwardRemove t n, ?_, ?_, ?_, ?_⟩
    · simp [phfwdRemove, h]
    · intro p hp hext
      exact (remove_ruleAt n hne hsym t p hp).1 hext
    · intro p hp hnot
      exact (remove_ruleAt n hne hsym t p hp).2 hnot
    · intro habs
      exact remove_absent n t habs
  · intro m hm
    simp [phfwdRemove, hm]

/-- A sample trie holding the rules 123 -> 5 and 1234 -> 6 (built through
the API, for the Remove witness). -/
def removeSampleTrie : PF :=
  ((phfwdAdd [] (phfwdAdd [] (some PF.empty) (some ['1', '2', '3']) (some ['5'])).2
      (some ['1', '2', '3', '4']) (some ['6'])).2).getD PF.empty

/-- Witness for `remove_subtree`: removing 123 from the trie holding
123 -> 5 and 1234 -> 6. -/
theorem remove_subtree_witness :
    isNumberOk (some ['1', '2', '3']) = true ∧
    ((∃ t', phfwdRemove (some removeSampleTrie) (some ['1', '2', '3']) = some t' ∧
      (∀ p, p.all isSymbol = true → (∃ rest, p = ['1', '2', '3'] ++ rest) →
        ruleAt t' p = none) ∧
      (∀ p, p.all isSymbol = true → (¬ ∃ rest, p = ['1', '2', '3'] ++ rest) →
        ruleAt t' p = ruleAt removeSampleTrie p) ∧
      (nodeAt removeSampleTrie ['1', '2', '3'] = none → t' = removeSampleTrie)) ∧
    (∀ m : Option (List Char), isNumberOk m = false →
      phfwdRemove (some removeSampleTrie) m = some removeSampleTrie)) :=
  ⟨by decide, remove_subtree removeSampleTrie ['1', '2', '3'] (by decide)⟩

/-! ### Facts about `addPhoneForward` -/

theorem setFwd_fwd (t : PF) (v : Option (List Char)) : (t.setFwd v).fwd = v := by
  cases t
  rfl

theorem setFwd_child (t : PF) (v : Option (List Char)) (i : Nat) :
    (t.setFwd v).child i = t.child i := by
  cases t
  rfl

theorem empty_child (i : Nat) : PF.empty.child i = none := by
  rcases i with _ | _ | _ | _ | _ | _ | _ | _ | _ | _ | _ | _ | i <;> rfl

theorem ruleAt_empty (q : List Char) : ruleAt PF.empty q = none := by
  cases q with
  | nil => rfl
  | cons e q' => exact ruleAt_cons_none (empty_child _)

theorem allocNew_fst (a : List Bool) :
    (allocNew a).1 = none ∨ (allocNew a).1 = some PF.empty := by
  cases a with
  | nil => exact Or.inr rfl
  | cons b r => cases b <;> simp [allocNew]

theorem add_alloc_nil : ∀ (p : List Char) (t : PF) (v : List Char),
    (addPhoneForward [] t p v).1 = true := by
  intro p
  induction p with
  | nil => intro t v; rfl
  | cons c rest ih =>
    intro t v
    simp only [addPhoneForward]
    cases hc : t.child (charToInt c) with
    | some ch => simpa using ih ch v
    | none => simpa [allocNew] using ih PF.empty v

theorem nodeAt_none_extend {t : PF} : ∀ {p : List Char}, nodeAt t p = none →
    ∀ (rest : List Char), nodeAt t (p ++ rest) = none := by
  intro p
  induction p generalizing t with
  | nil => intro h; exact absurd h (by simp [nodeAt])
  | cons c p' ih =>
    intro h rest
    simp only [nodeAt] at h
    simp only [List.cons_append, nodeAt]
    cases hc : t.child (charToInt c) with
    | none => rfl
    | some ch =>
      rw [hc] at h
      exact ih h rest

theorem add_fail_nodeAt : ∀ (p : List Char) (alloc : List Bool) (t : PF) (v : List Char),
    (addPhoneForward alloc t p v).1 = false → nodeAt t p = none := by
  intro p
  induction p with
  | nil => intro alloc t v h; exact absurd h (by simp [addPhoneForward])
  | cons c rest ih =>
    intro alloc t v h
    simp only [addPhoneForward] at h
    cases hc : t.child (charToInt c) with
    | some ch =>
      rw [hc] at h
      simp only [nodeAt, hc]
      exact ih _ ch v (by simpa using h)
    | none => simp [nodeAt, hc]

theorem add_fail_ruleAt : ∀ (p : List Char) (alloc : List Bool) (t : PF) (v : List Char),
    p.all isSymbol = true →
    (addPhoneForward alloc t p v).1 = false →
    ∀ q, q.all isSymbol = true →
      ruleAt (addPhoneForward alloc t p v).2.1 q = ruleAt t q := by
  intro p
  induction p with
  | nil => intro alloc t v _ h; exact absurd h (by simp [addPhoneForward])
  | cons c rest ih =>
    intro alloc t v hsym h q hq
    have hcsym : isSymbol c = true := by
      simp only [List.all_cons, Bool.and_eq_true] at hsym
      exact hsym.1
    have hrsym : rest.all isSymbol = true := by
      simp only [List.all_cons, Bool.and_eq_true] at hsym
      exact hsym.2
    have hlt := charToInt_lt_12 c
    cases hc : t.child (charToInt c) with
    | some ch =>
      simp only [addPhoneForward, hc] at h ⊢
      have hf : (addPhoneForward alloc ch rest v).1 = false := by simpa using h
      cases q with
      | nil => rw [ruleAt_nil, ruleAt_nil, setChild_fwd]
      | cons e q' =>
        have he : isSymbol e = true := by
          simp only [List.all_cons, Bool.and_eq_true] at hq
          exact hq.1
        have hq' : q'.all isSymbol = true := by
          simp only [List.all_cons, Bool.and_eq_true] at hq
          exact hq.2
        by_cases heq : e = c
        · subst heq
          have hch : (t.setChild (charToInt e)
                (some (addPhoneForward alloc ch rest v).2.1)).child (charToInt e) =
              some (addPhoneForward alloc ch rest v).2.1 := by
            rw [child_setChild t _ (charToInt_lt_12 e) (charToInt_lt_12 e)]
            simp
          rw [ruleAt_cons_some hch, ruleAt_cons_some hc]
          exact ih alloc ch v hrsym hf q' hq'
        · have hne' : charToInt c ≠ charToInt e :=
            fun hh => heq (charToInt_inj he hcsym hh.symm)
          have hch : (t.setChild (charToInt c)
                (some (addPhoneForward alloc ch rest v).2.1)).child (charToInt e) =
              t.child (charToInt e) := by
            rw [child_setChild t _ hlt (charToInt_lt_12 e)]
            simp [hne']
          cases hcc : t.child (charToInt e) with
          | none => rw [ruleAt_cons_none (hch.trans hcc), ruleAt_cons_none hcc]
          | some ch2 => rw [ruleAt_cons_some (hch.trans hcc), ruleAt_cons_some hcc]
    | none =>
      rcases allocNew_fst alloc with ha | ha
      · have hres : addPhoneForward alloc t (c :: rest) v =
            (false, t, (allocNew alloc).2) := by
          simp only [addPhoneForward, hc]
          rw [show allocNew alloc = (none, (allocNew alloc).2) from by rw [← ha]]
        rw [hres]
      · have hres : addPhoneForward alloc t (c :: rest) v =
            ((addPhoneForward (allocNew alloc).2 PF.empty rest v).1,
             t.setChild (charToInt c)
               (some (addPhoneForward (allocNew alloc).2 PF.empty rest v).2.1),
             (addPhoneForward (allocNew alloc).2 PF.empty rest v).2.2) := by
          simp only [addPhoneForward, hc]
          rw [show allocNew alloc = (some PF.empty, (allocNew alloc).2) from by rw [← ha]]
        rw [hres] at h ⊢
        have hf : (addPhoneForward (allocNew alloc).2 PF.empty rest v).1 = false := by
          simpa using h
        cases q with
        | nil => rw [ruleAt_nil, ruleAt_nil, setChild_fwd]
        | cons e q' =>
          have he : isSymbol e = true := by
            simp only [List.all_cons, Bool.and_eq_true] at hq
            exact hq.1
          have hq' : q'.all isSymbol = true := by
            simp only [List.all_cons, Bool.and_eq_true] at hq
            exact hq.2
          by_cases heq : e = c
          · subst heq
            have hch : (t.setChild (charToInt e)
                  (some (addPhoneForward (allocNew alloc).2 PF.empty rest v).2.1)).child
                    (charToInt e) =
                some (addPhoneForward (allocNew alloc).2 PF.empty rest v).2.1 := by
              rw [child_setChild t _ (charToInt_lt_12 e) (charToInt_lt_12 e)]
              simp
            rw [ruleAt_cons_some hch, ruleAt_cons_none hc]
            rw [ih (allocNew alloc).2 PF.empty v hrsym hf q' hq']
            exact ruleAt_empty q'
          · have hne' : charToInt c ≠ charToInt e :=
              fun hh => heq (charToInt_inj he hcsym hh.symm)
            have hch : (t.setChild (charToInt c)
                  (some (addPhoneForward (allocNew alloc).2 PF.empty rest v).2.1)).child
                    (charToInt e) =
                t.child (charToInt e) := by
              rw [child_setChild t _ hlt (charToInt_lt_12 e)]
              simp [hne']
            cases hcc : t.child (charToInt e) with
            | none => rw [ruleAt_cons_none (hch.trans hcc), ruleAt_cons_none hcc]
            | some ch2 => rw [ruleAt_cons_some (hch.trans hcc), ruleAt_cons_some hcc]

theorem add_ruleAt : ∀ (p : List Char) (alloc : List Bool) (t : PF) (v : List Char),
    p.all isSymbol = true →
    (addPhoneForward alloc t p v).1 = true →
    ∀ q, q.all isSymbol = true →
      ruleAt (addPhoneForward alloc t p v).2.1 q =
        if q = p then some v else ruleAt t q := by
  intro p
  induction p with
  | nil =>
    intro alloc t v _ _ q _
    simp only [addPhoneForward]
    cases q with
    | nil => simp [ruleAt_nil, setFwd_fwd]
    | cons e q' =>
      simp only [List.cons_ne_nil, if_false]
      cases hcc : (t.setFwd (some v)).child (charToInt e) with
      | none =>
        rw [ruleAt_cons_none hcc]
        rw [setFwd_child] at hcc
        rw [ruleAt_cons_none hcc]
      | some ch =>
        rw [ruleAt_cons_some hcc]
        rw [setFwd_child] at hcc
        rw [ruleAt_cons_some hcc]
  | cons c rest ih =>
    intro alloc t v hsym hsucc q hq
    have hcsym : isSymbol c = true := by
      simp only [List.all_cons, Bool.and_eq_true] at hsym
      exact hsym.1
    have hrsym : rest.all isSymbol = true := by
      simp only [List.all_cons, Bool.and_eq_true] at hsym
      exact hsym.2
    have hlt := charToInt_lt_12 c
    cases hc : t.child (charToInt c) with
    | some ch =>
      simp only [addPhoneForward, hc] at hsucc ⊢
      have hs : (addPhoneForward alloc ch rest v).1 = true := by simpa using hsucc
      cases q with
      | nil =>
        rw [if_neg (show ¬([] : List Char) = c :: rest by simp)]
        rw [ruleAt_nil, ruleAt_nil, setChild_fwd]
      | cons e q' =>
        have he : isSymbol e = true := by
          simp only [List.all_cons, Bool.and_eq_true] at hq
          exact hq.1
        have hq' : q'.all isSymbol = true := by
          simp only [List.all_cons, Bool.and_eq_true] at hq
          exact hq.2
        by_cases heq : e = c
        · subst heq
          have hch : (t.setChild (charToInt e)
                (some (addPhoneForward alloc ch rest v).2.1)).child (charToInt e) =
              some (addPhoneForward alloc ch rest v).2.1 := by
            rw [child_setChild t _ (charToInt_lt_12 e) (charToInt_lt_12 e)]
            simp
          rw [ruleAt_cons_some hch]
          rw [ih alloc ch v hrsym hs q' hq']
          by_cases hqr : q' = rest
          · subst hqr
            simp
          · rw [if_neg hqr, if_neg (by simp [hqr]), ruleAt_cons_some hc]
        · have hne' : charToInt c ≠ charToInt e :=
            fun hh => heq (charToInt_inj he hcsym hh.symm)
          have hch : (t.setChild (charToInt c)
                (some (addPhoneForward alloc ch rest v).2.1)).child (charToInt e) =
              t.child (charToInt e) := by
            rw [child_setChild t _ hlt (charToInt_lt_12 e)]
            simp [hne']
          rw [if_neg (by simp [heq])]
          cases hcc : t.child (charToInt e) with
          | none => rw [ruleAt_cons_none (hch.trans hcc), ruleAt_cons_none hcc]
          | some ch2 => rw [ruleAt_cons_some (hch.trans hcc), ruleAt_cons_some hcc]
    | none =>
      rcases allocNew_fst alloc with ha | ha
      · have hres : addPhoneForward alloc t (c :: rest) v =
            (false, t, (allocNew alloc).2) := by
          simp only [addPhoneForward, hc]
          rw [show allocNew alloc = (none, (allocNew alloc).2) from by rw [← ha]]
        rw [hres] at hsucc
        exact absurd hsucc (by simp)
      · have hres : addPhoneForward alloc t (c :: rest) v =
            ((addPhoneForward (allocNew alloc).2 PF.empty rest v).1,
             t.setChild (charToInt c)
               (some (addPhoneForward (allocNew alloc).2 PF.empty rest v).2.1),
             (addPhoneForward (allocNew alloc).2 PF.empty rest v).2.2) := by
          simp only [addPhoneForward, hc]
          rw [show allocNew alloc = (some PF.empty, (allocNew alloc).2) from by rw [← ha]]
        rw [hres] at hsucc ⊢
        have hs : (addPhoneForward (allocNew alloc).2 PF.empty rest v).1 = true := by
          simpa using hsucc
        cases q with
        | nil =>
          rw [if_neg (show ¬([] : List Char) = c :: rest by simp)]
          rw [ruleAt_nil, ruleAt_nil, setChild_fwd]
        | cons e q' =>
          have he : isSymbol e = true := by
            simp only [List.all_cons, Bool.and_eq_true] at hq
            exact hq.1
          have hq' : q'.all isSymbol = true := by
            simp only [List.all_cons, Bool.and_eq_true] at hq
            exact hq.2
          by_cases heq : e = c
          · subst heq
            have hch : (t.setChild (charToInt e)
                  (some (addPhoneForward (allocNew alloc).2 PF.empty rest v).2.1)).child
                    (charToInt e) =
                some (addPhoneForward (allocNew alloc).2 PF.empty rest v).2.1 := by
              rw [child_setChild t _ (charToInt_lt_12 e) (charToInt_lt_12 e)]
              simp
            rw [ruleAt_cons_some hch]
            rw [ih (allocNew alloc).2 PF.empty v hrsym hs q' hq']
            by_cases hqr : q' = rest
            · subst hqr
              simp
            · rw [if_neg hqr, if_neg (by simp [hqr]), ruleAt_cons_none hc, ruleAt_empty]
          · have hne' : charToInt c ≠ charToInt e :=
              fun hh => heq (charToInt_inj he hcsym hh.symm)
            have hch : (t.setChild (charToInt c)
                  (some (addPhoneForward (allocNew alloc).2 PF.empty rest v).2.1)).child
                    (charToInt e) =
                t.child (charToInt e) := by
              rw [child_setChild t _ hlt (charToInt_lt_12 e)]
              simp [hne']
            rw [if_neg (by simp [heq])]
            cases hcc : t.child (charToInt e) with
            | none => rw [ruleAt_cons_none (hch.trans hcc), ruleAt_cons_none hcc]
            | some ch2 => rw [ruleAt_cons_some (hch.trans hcc), ruleAt_cons_some hcc]

theorem maxFound_congr {t1 t2 : PF} {n : List Char}
    (h : ∀ j f, Found t1 n j f ↔ Found t2 n j f) :
    maxFound t1 n = maxFound t2 n := by
  cases h1 : maxFound t1 n with
  | none =>
    cases h2 : maxFound t2 n with
    | none => rfl
    | some df =>
      obtain ⟨j, f⟩ := df
      exact absurd ((h j f).mpr (maxFound_found h2)) (maxFound_none h1)
  | some df =>
    obtain ⟨j, f⟩ := df
    cases h2 : maxFound t2 n with
    | none => exact absurd ((h j f).mp (maxFound_found h1)) (maxFound_none h2)
    | some df2 =>
      obtain ⟨j2, f2⟩ := df2
      have hf1 : Found t2 n j f := (h j f).mp (maxFound_found h1)
      have hf2 : Found t1 n j2 f2 := (h j2 f2).mpr (maxFound_found h2)
      have hjj : j = j2 := Nat.le_antisymm (maxFound_ge h2 hf1) (maxFound_ge h1 hf2)
      subst hjj
      rw [found_unique (maxFound_found h1) hf2]

theorem all_isSymbol_take {n : List Char} (h : n.all isSymbol = true) (j : Nat) :
    (n.take j).all isSymbol = true := by
  simp only [List.all_eq_true] at h ⊢
  intro x hx
  exact h x (List.mem_of_mem_take hx)

theorem get_eq_of_ruleAt_eq {t1 t2 : PF}
    (h : ∀ p, p.all isSymbol = true → ruleAt t1 p = ruleAt t2 p) :
    ∀ num, phfwdGet (some t1) num = phfwdGet (some t2) num := by
  intro num
  by_cases hok : isNumberOk num = true
  · obtain ⟨n, rfl⟩ : ∃ n, num = some n := by
      cases num with
      | none => simp [isNumberOk] at hok
      | some n => exact ⟨n, rfl⟩
    have hsym : n.all isSymbol = true := by
      simp only [isNumberOk, Bool.and_eq_true] at hok
      exact hok.2
    rw [phfwdGet_eq t1 hok, phfwdGet_eq t2 hok]
    have hmf : maxFound t1 n = maxFound t2 n := by
      apply maxFound_congr
      intro j f
      unfold Found
      rw [h (n.take j) (all_isSymbol_take hsym j)]
    rw [hmf]
  · have hok' : isNumberOk num = false := by simpa using hok
    simp [phfwdGet, hok']

theorem ruleAt_none_of_nodeAt {t : PF} {p : List Char} (h : nodeAt t p = none) :
    ruleAt t p = none := by
  simp [ruleAt, h]

/-- C6: whenever `phfwdAdd` returns false — also on a node-creation
(allocation) failure partway through building the path — the returned trie
holds exactly the rules of the original trie and every `phfwdGet` query
resolves identically: nothing registered before the call is changed. -/
theorem add_failure_rollback (alloc : List Bool) (t : PF)
    (num1 num2 : Option (List Char)) (res : Option PF)
    (h : phfwdAdd alloc (some t) num1 num2 = (false, res)) :
    ∃ t', res = some t' ∧
      (∀ p, p.all isSymbol = true → ruleAt t' p = ruleAt t p) ∧
      (∀ q, phfwdGet (some t') q = phfwdGet (some t) q) := by
  simp only [phfwdAdd] at h
  by_cases hcond :
      (!isNumberOk num1 || !isNumberOk num2 || num1 == num2) = true
  · rw [if_pos hcond] at h
    injection h with h1 h2
    exact ⟨t, h2.symm, fun p _ => rfl, fun q => rfl⟩
  · rw [if_neg hcond] at h
    simp only [Bool.or_eq_true, Bool.not_eq_true', beq_iff_eq, not_or] at hcond
    obtain ⟨⟨hv1, hv2⟩, hne12⟩ := hcond
    have h1 : isNumberOk num1 = true := by simpa using hv1
    obtain ⟨n1, rfl⟩ : ∃ n1, num1 = some n1 := by
      cases num1 with
      | none => simp [isNumberOk] at h1
      | some n1 => exact ⟨n1, rfl⟩
    have hsym1 : n1.all isSymbol = true := by
      simp only [isNumberOk, Bool.and_eq_true] at h1
      exact h1.2
    have hne1 : n1 ≠ [] := by
      intro he
      subst he
      simp [isNumberOk] at h1
    by_cases hr : (addPhoneForward alloc t n1 (num2.getD [])).1 = true
    · rw [Option.getD_some] at h
      rw [if_pos hr] at h
      injection h with h1' h2'
      exact absurd h1' (by simp)
    · have hr' : (addPhoneForward alloc t n1 (num2.getD [])).1 = false := by
        simpa using hr
      rw [Option.getD_some] at h
      rw [if_neg hr] at h
      injection h with h1' h2'
      rw [phfwdRemove] at h2'
      rw [if_pos h1] at h2'
      rw [Option.getD_some] at h2'
      refine ⟨phoneForwardRemove (addPhoneForward alloc t n1 (num2.getD [])).2.1 n1,
        h2'.symm, ?_, ?_⟩
      · intro p hp
        by_cases hext : ∃ rest, p = n1 ++ rest
        · rw [(remove_ruleAt n1 hne1 hsym1 _ p hp).1 hext]
          obtain ⟨rest, rfl⟩ := hext
          have habs : nodeAt t n1 = none := add_fail_nodeAt n1 alloc t (num2.getD []) hr'
          exact (ruleAt_none_of_nodeAt (nodeAt_none_extend habs rest)).symm
        · rw [(remove_ruleAt n1 hne1 hsym1 _ p hp).2 hext]
          exact add_fail_ruleAt n1 alloc t (num2.getD []) hsym1 hr' p hp
      · apply get_eq_of_ruleAt_eq
        intro p hp
        by_cases hext : ∃ rest, p = n1 ++ rest
        · rw [(remove_ruleAt n1 hne1 hsym1 _ p hp).1 hext]
          obtain ⟨rest, rfl⟩ := hext
          have habs : nodeAt t n1 = none := add_fail_nodeAt n1 alloc t (num2.getD []) hr'
          exact (ruleAt_none_of_nodeAt (nodeAt_none_extend habs rest)).symm
        · rw [(remove_ruleAt n1 hne1 hsym1 _ p hp).2 hext]
          exact add_fail_ruleAt n1 alloc t (num2.getD []) hsym1 hr' p hp

/-- Witness for `add_failure_rollback`: adding 12 -> 7 to the empty trie
with an allocation oracle that fails the second node creation. -/
theorem add_failure_rollback_witness :
    phfwdAdd [true, false] (some PF.empty) (some ['1', '2']) (some ['7']) =
      (false,
        (phfwdAdd [true, false] (some PF.empty) (some ['1', '2']) (some ['7'])).2) ∧
    (∃ t', (phfwdAdd [true, false] (some PF.empty) (some ['1', '2'])
        (some ['7'])).2 = some t' ∧
      (∀ p, p.all isSymbol = true → ruleAt t' p = ruleAt PF.empty p) ∧
      (∀ q, phfwdGet (some t') q = phfwdGet (some PF.empty) q)) :=
  ⟨rfl, add_failure_rollback [true, false] PF.empty (some ['1', '2']) (some ['7'])
    (phfwdAdd [true, false] (some PF.empty) (some ['1', '2']) (some ['7'])).2 rfl⟩

/-- C8: running Add(t, p, x) and then Add(t1, p, y) on the result leaves
the trie exactly as Add(t1, p, y) does: the rule at `p` is `y` (never a
merge of `x` and `y`), every rule at a path other than `p` is untouched by
the second Add, and Get on `p` resolves through `y`. -/
theorem add_overwrite (t : PF) (p x y : List Char)
    (hp : isNumberOk (some p) = true) (hx : isNumberOk (some x) = true)
    (hy : isNumberOk (some y) = true) (hpx : p ≠ x) (hpy : p ≠ y) :
    ∃ t1 t2,
      phfwdAdd [] (some t) (some p) (some x) = (true, some t1) ∧
      phfwdAdd [] (some t1) (some p) (some y) = (true, some t2) ∧
      ruleAt t2 p = some y ∧
      (∀ q, q.all isSymbol = true → q ≠ p → ruleAt t2 q = ruleAt t1 q) ∧
      phfwdGet (some t2) (some p) = some [some y] := by
  have hpsym : p.all isSymbol = true := by
    simp only [isNumberOk, Bool.and_eq_true] at hp
    exact hp.2
  have hs1 : (addPhoneForward [] t p x).1 = true := add_alloc_nil p t x
  have hs2 : (addPhoneForward [] (addPhoneForward [] t p x).2.1 p y).1 = true :=
    add_alloc_nil p _ y
  refine ⟨(addPhoneForward [] t p x).2.1,
    (addPhoneForward [] (addPhoneForward [] t p x).2.1 p y).2.1, ?_, ?_, ?_, ?_, ?_⟩
  · have hcond : (!isNumberOk (some p) || !isNumberOk (some x) ||
        ((some p : Option (List Char)) == some x)) = false := by
      simp [hp, hx, hpx]
    simp only [phfwdAdd, hcond, Option.getD_some]
    simp [hs1]
  · have hcond : (!isNumberOk (some p) || !isNumberOk (some y) ||
        ((some p : Option (List Char)) == some y)) = false := by
      simp [hp, hy, hpy]
    simp only [phfwdAdd, hcond, Option.getD_some]
    simp [hs2]
  · have := add_ruleAt p [] (addPhoneForward [] t p x).2.1 y hpsym hs2 p hpsym
    simpa using this
  · intro q hq hqp
    rw [add_ruleAt p [] (addPhoneForward [] t p x).2.1 y hpsym hs2 q hq, if_neg hqp]
  · have hrule :
        ruleAt (addPhoneForward [] (addPhoneForward [] t p x).2.1 p y).2.1 p = some y := by
      have := add_ruleAt p [] (addPhoneForward [] t p x).2.1 y hpsym hs2 p hpsym
      simpa using this
    have hfound :
        Found (addPhoneForward [] (addPhoneForward [] t p x).2.1 p y).2.1 p p.length y := by
      refine ⟨Nat.le_refl _, ?_⟩
      rw [List.take_length]
      exact hrule
    rw [phfwdGet_eq _ hp]
    cases hm : maxFound (addPhoneForward [] (addPhoneForward [] t p x).2.1 p y).2.1 p with
    | none => exact absurd hfound (maxFound_none hm)
    | some df =>
      obtain ⟨j, f⟩ := df
      have hj : j = p.length :=
        Nat.le_antisymm (maxFound_found hm).1 (maxFound_ge hm hfound)
      subst hj
      have hf : f = y := found_unique (maxFound_found hm) hfound
      subst hf
      simp

/-- Witness for `add_overwrite`: overwriting the rule at 1 (first 1 -> 2,
then 1 -> 3) on the empty trie. -/
theorem add_overwrite_witness :
    (isNumberOk (some ['1']) = true ∧ isNumberOk (some ['2']) = true ∧
     isNumberOk (some ['3']) = true ∧ ['1'] ≠ ['2'] ∧ ['1'] ≠ ['3']) ∧
    (∃ t1 t2,
      phfwdAdd [] (some PF.empty) (some ['1']) (some ['2']) = (true, some t1) ∧
      phfwdAdd [] (some t1) (some ['1']) (some ['3']) = (true, some t2) ∧
      ruleAt t2 ['1'] = some ['3'] ∧
      (∀ q, q.all isSymbol = true → q ≠ ['1'] → ruleAt t2 q = ruleAt t1 q) ∧
      phfwdGet (some t2) (some ['1']) = some [some ['3']]) :=
  ⟨⟨by decide, by decide, by decide, by decide, by decide⟩,
   add_overwrite PF.empty ['1'] ['2'] ['3'] (by decide) (by decide) (by decide)
     (by decide) (by decide)⟩

/-! ### Facts about `comparator` and the dedup pass -/

theorem comparator_self : ∀ (a : List Char), comparator a a = 0 := by
  intro a
  induction a with
  | nil => rfl
  | cons x xs ih => simp [comparator, ih]

theorem comparator_nil_le (c : List Char) : comparator [] c ≤ 0 := by
  cases c <;> simp [comparator]

theorem comparator_zero_iff : ∀ {a b : List Char}, a.all isSymbol = true →
    b.all isSymbol = true → (comparator a b = 0 ↔ a = b) := by
  intro a
  induction a with
  | nil =>
    intro b _ _
    cases b <;> simp [comparator]
  | cons x xs ih =>
    intro b ha hb
    cases b with
    | nil => simp [comparator]
    | cons y ys =>
      have hx : isSymbol x = true := by
        simp only [List.all_cons, Bool.and_eq_true] at ha
        exact ha.1
      have hxs : xs.all isSymbol = true := by
        simp only [List.all_cons, Bool.and_eq_true] at ha
        exact ha.2
      have hy : isSymbol y = true := by
        simp only [List.all_cons, Bool.and_eq_true] at hb
        exact hb.1
      have hys : ys.all isSymbol = true := by
        simp only [List.all_cons, Bool.and_eq_true] at hb
        exact hb.2
      rcases Nat.lt_trichotomy (charToInt x) (charToInt y) with hlt | heq | hgt
      · rw [show comparator (x :: xs) (y :: ys) = -1 by
          simp [comparator, hlt, Nat.not_lt.mpr (Nat.le_of_lt hlt)]]
        constructor
        · intro hc
          exact absurd hc (by decide)
        · intro hc
          injection hc with h1 h2
          exact absurd (h1 ▸ hlt) (by simp)
      · rw [show comparator (x :: xs) (y :: ys) = comparator xs ys by
          simp [comparator, heq]]
        rw [ih hxs hys]
        have hxy : x = y := charToInt_inj hx hy heq
        subst hxy
        simp
      · rw [show comparator (x :: xs) (y :: ys) = 1 by
          simp [comparator, hgt]]
        constructor
        · intro hc
          exact absurd hc (by decide)
        · intro hc
          injection hc with h1 h2
          exact absurd (h1 ▸ hgt) (by simp)

theorem comparator_le_trans : ∀ (a b c : List Char), comparator a b ≤ 0 →
    comparator b c ≤ 0 → comparator a c ≤ 0 := by
  intro a
  induction a with
  | nil => intro b c _ _; exact comparator_nil_le c
  | cons x xs ih =>
    intro b c h1 h2
    cases b with
    | nil => exact absurd h1 (by simp [comparator])
    | cons y ys =>
      cases c with
      | nil => exact absurd h2 (by simp [comparator])
      | cons z zs =>
        have hxy : ¬ charToInt x > charToInt y := by
          intro hgt
          rw [show comparator (x :: xs) (y :: ys) = 1 by simp [comparator, hgt]] at h1
          exact absurd h1 (by decide)
        have hyz : ¬ charToInt y > charToInt z := by
          intro hgt
          rw [show comparator (y :: ys) (z :: zs) = 1 by simp [comparator, hgt]] at h2
          exact absurd h2 (by decide)
        by_cases hlt : charToInt x < charToInt z
        · rw [show comparator (x :: xs) (z :: zs) = -1 by
            simp [comparator, hlt, Nat.not_lt.mpr (Nat.le_of_lt hlt)]]
          decide
        · have hxz : charToInt x = charToInt z := by omega
          rw [show comparator (x :: xs) (z :: zs) = comparator xs zs by
            simp [comparator, hxz, hlt]]
          have hxy' : charToInt x = charToInt y := by omega
          have hyz' : charToInt y = charToInt z := by omega
          rw [show comparator (x :: xs) (y :: ys) = comparator xs ys by
            simp [comparator, hxy']] at h1
          rw [show comparator (y :: ys) (z :: zs) = comparator ys zs by
            simp [comparator, hyz']] at h2
          exact ih ys zs h1 h2

theorem comparator_lt_trans : ∀ (a b c : List Char), comparator a b < 0 →
    comparator b c < 0 → comparator a c < 0 := by
  intro a
  induction a with
  | nil =>
    intro b c h1 h2
    cases b with
    | nil => exact absurd h1 (by simp [comparator])
    | cons y ys =>
      cases c with
      | nil => exact absurd h2 (by simp [comparator])
      | cons z zs => simp [comparator]
  | cons x xs ih =>
    intro b c h1 h2
    cases b with
    | nil => exact absurd h1 (by simp [comparator])
    | cons y ys =>
      cases c with
      | nil => exact absurd h2 (by simp [comparator])
      | cons z zs =>
        have hxy : ¬ charToInt x > charToInt y := by
          intro hgt
          rw [show comparator (x :: xs) (y :: ys) = 1 by simp [comparator, hgt]] at h1
          exact absurd h1 (by decide)
        have hyz : ¬ charToInt y > charToInt z := by
          intro hgt
          rw [show comparator (y :: ys) (z :: zs) = 1 by simp [comparator, hgt]] at h2
          exact absurd h2 (by decide)
        by_cases hlt : charToInt x < charToInt z
        · rw [show comparator (x :: xs) (z :: zs) = -1 by
            simp [comparator, hlt, Nat.not_lt.mpr (Nat.le_of_lt hlt)]]
          decide
        · have hxz : charToInt x = charToInt z := by omega
          rw [show comparator (x :: xs) (z :: zs) = comparator xs zs by
            simp [comparator, hxz, hlt]]
          have hxy' : charToInt x = charToInt y := by omega
          have hyz' : charToInt y = charToInt z := by omega
          rw [show comparator (x :: xs) (y :: ys) = comparator xs ys by
            simp [comparator, hxy']] at h1
          rw [show comparator (y :: ys) (z :: zs) = comparator ys zs by
            simp [comparator, hyz']] at h2
          exact ih ys zs h1 h2

theorem comparator_total : ∀ (a b : List Char), comparator a b ≤ 0 ∨ comparator b a ≤ 0 := by
  intro a
  induction a with
  | nil => intro b; exact Or.inl (comparator_nil_le b)
  | cons x xs ih =>
    intro b
    cases b with
    | nil => exact Or.inr (comparator_nil_le (x :: xs))
    | cons y ys =>
      rcases Nat.lt_trichotomy (charToInt x) (charToInt y) with hlt | heq | hgt
      · left
        rw [show comparator (x :: xs) (y :: ys) = -1 by
          simp [comparator, hlt, Nat.not_lt.mpr (Nat.le_of_lt hlt)]]
        decide
      · rcases ih ys with h | h
        · left
          rw [show comparator (x :: xs) (y :: ys) = comparator xs ys by
            simp [comparator, heq]]
          exact h
        · right
          rw [show comparator (y :: ys) (x :: xs) = comparator ys xs by
            simp [comparator, heq.symm]]
          exact h
      · right
        rw [show comparator (y :: ys) (x :: xs) = -1 by
          simp [comparator, hgt, Nat.not_lt.mpr (Nat.le_of_lt hgt)]]
        decide

instance : IsTotal (List Char) NumLe := ⟨comparator_total⟩

instance : IsTrans (List Char) NumLe := ⟨comparator_le_trans⟩

instance : IsTrans (List Char) NumLt := ⟨comparator_lt_trans⟩
